import Mathlib

/-!
Verification development for the sotto dictation tool (Go sources under
apps/sotto). Strings are modelled as lists of rune code points
(`Str := List Nat`); the Unicode character classes used by the source
(`unicode.IsSpace`, `unicode.IsLetter`, `unicode.IsDigit`, `unicode.ToUpper`,
and the regexp word-character class) are modelled on the Latin-1/ASCII
fragment of the corresponding Unicode tables, which covers every character
the source's own tests exercise.
-/

namespace Sotto

/-- Rune strings: lists of Unicode code points. -/
abbrev Str := List Nat

/-- Convert a Lean string literal to its code-point list (for concrete inputs). -/
def strOf (s : String) : Str := s.toList.map Char.toNat

/-- unicode.IsSpace on the Latin-1 range: TAB LF VT FF CR SPC NEL NBSP. -/
def isSpc (c : Nat) : Bool :=
  c == 32 || c == 9 || c == 10 || c == 11 || c == 12 || c == 13 || c == 133 || c == 160

/-- strings.Fields, accumulating the current word. -/
def fieldsAux (cur : Str) : Str → List Str
  | [] => if cur = [] then [] else [cur]
  | c :: rest =>
    if isSpc c then
      if cur = [] then fieldsAux [] rest else cur :: fieldsAux [] rest
    else
      fieldsAux (cur ++ [c]) rest

/-- strings.Fields: split around runs of whitespace. -/
def fields (s : Str) : List Str := fieldsAux [] s

/-- strings.Join with a single-space separator. -/
def joinWords : List Str → Str
  | [] => []
  | [w] => w
  | w :: rest => w ++ 32 :: joinWords rest

/-- cleanSegment (riva/transcript_segments.go): TrimSpace then
strings.Join(strings.Fields(raw), " "); equal to joining the fields. -/
def cleanSegment (s : Str) : Str := joinWords (fields s)

/-- strings.TrimSpace on rune strings. -/
def trimSpace (s : Str) : Str :=
  ((s.dropWhile (fun c => isSpc c)).reverse.dropWhile (fun c => isSpc c)).reverse

end Sotto

namespace Sotto.fsm

/-- The error values produced by the FSM (internal/fsm). -/
inductive TransitionError where
  | invalid (state event : String)
  | unknown (state : String)
deriving DecidableEq, Repr

/-- fsm.Transition (internal/fsm): validates and applies one state transition. -/
def Transition (current event : String) : String × Option TransitionError :=
  if event = "fail" then ("error", none)
  else if current = "idle" then
    if event = "start" then ("recording", none)
    else (current, some (.invalid current event))
  else if current = "recording" then
    if event = "stop" then ("transcribing", none)
    else if event = "cancel" then ("idle", none)
    else (current, some (.invalid current event))
  else if current = "transcribing" then
    if event = "transcribed" then ("idle", none)
    else (current, some (.invalid current event))
  else if current = "error" then
    if event = "reset" then ("idle", none)
    else (current, some (.invalid current event))
  else (current, some (.unknown current))

end Sotto.fsm

namespace Sotto.riva

open Sotto

/-- appendSegment (riva/transcript_segments.go): merge one candidate into the
committed segment list, deduplicating prefix growth and retraction. -/
def appendSegment (segments : List Str) (transcript : Str) : List Str :=
  let transcript := cleanSegment transcript
  if transcript = [] then segments
  else
    match segments.getLast? with
    | none => segments ++ [transcript]
    | some lastRaw =>
      let last := cleanSegment lastRaw
      if transcript = last then segments
      else if last.isPrefixOf transcript then segments.dropLast ++ [transcript]
      else if transcript.isPrefixOf last then segments
      else segments ++ [transcript]

/-- collectSegments (riva/transcript_segments.go): append a valid trailing
interim segment when needed. -/
def collectSegments (committedSegments : List Str) (lastInterim : Str) : List Str :=
  let interim := cleanSegment lastInterim
  if interim = [] then committedSegments
  else appendSegment committedSegments interim

/-- The merger state guarded by the Stream mutex: committed segments plus the
latest interim hypothesis. -/
structure StreamMergeState where
  segments : List Str
  lastInterim : Str
deriving DecidableEq, Repr

/-- One recognition result: finality flag and alternative transcripts. -/
structure RivaResult where
  isFinal : Bool
  alternatives : List Str
deriving DecidableEq, Repr

/-- recordResponse (riva/stream_receive.go), per result: a final alternative is
committed through appendSegment and clears the interim; a non-final alternative
only replaces the latest interim hypothesis. -/
def recordResult (s : StreamMergeState) (r : RivaResult) : StreamMergeState :=
  match r.alternatives with
  | [] => s
  | a :: _ =>
    let transcript := cleanSegment a
    if transcript = [] then s
    else if r.isFinal then
      { segments := appendSegment s.segments transcript, lastInterim := [] }
    else
      { s with lastInterim := transcript }

/-- recordResponse (riva/stream_receive.go): fold over the results of one
response. -/
def recordResponse (s : StreamMergeState) (results : List RivaResult) : StreamMergeState :=
  results.foldl recordResult s

/-- commonPrefixWords (unnamed riva client, part_035): shared leading words. -/
def commonPrefixWords : List Str → List Str → Nat
  | a :: as, b :: bs => if a = b then commonPrefixWords as bs + 1 else 0
  | _, _ => 0

/-- isInterimContinuation (unnamed riva client, part_035): whether an interim
update extends prior speech. -/
def isInterimContinuation (previous current : Str) : Bool :=
  let previous := cleanSegment previous
  let current := cleanSegment current
  if previous = [] || current = [] then true
  else if previous = current then true
  else if previous.isPrefixOf current || current.isPrefixOf previous then true
  else
    let prevWords := fields previous
    let currWords := fields current
    let shorter := min prevWords.length currWords.length
    if shorter = 0 then true
    else decide (commonPrefixWords prevWords currWords * 2 ≥ shorter)

/-- recordResponse of the older monolithic client (unnamed part_035), per
result: a divergent interim pre-commits the prior interim hypothesis. -/
def recordResultDivergence (s : StreamMergeState) (r : RivaResult) : StreamMergeState :=
  match r.alternatives with
  | [] => s
  | a :: _ =>
    let transcript := cleanSegment a
    if transcript = [] then s
    else if r.isFinal then
      { segments := appendSegment s.segments transcript, lastInterim := [] }
    else
      let segments :=
        if s.lastInterim ≠ [] && !isInterimContinuation s.lastInterim transcript then
          appendSegment s.segments s.lastInterim
        else s.segments
      { segments := segments, lastInterim := transcript }

/-- Stream merger states reachable from the fresh stream by receive-loop
records, under either generation of recordResponse. -/
inductive Reachable : StreamMergeState → Prop where
  | init : Reachable ⟨[], []⟩
  | record {s : StreamMergeState} (r : RivaResult) :
      Reachable s → Reachable (recordResult s r)
  | recordDiv {s : StreamMergeState} (r : RivaResult) :
      Reachable s → Reachable (recordResultDivergence s r)

end Sotto.riva

namespace Sotto.audio

open Sotto

/-- 640 bytes = 20ms @ 16kHz mono s16 (audio/pulse.go chunkSizeBytes). -/
def chunkSizeBytes : Nat := 640

/-- Capacity of the chunks channel: make(chan []byte, 128) in StartCapture
(audio/pulse.go). -/
def chanCapacity : Nat := 128

/-- The capture state mutated by onPCM and Stop (audio/pulse.go Capture):
pending buffer, chunks sent into the channel in order, the number of those
chunks the consumer has not yet received (channel occupancy), raw-PCM mirror,
accepted byte counter and the stopped flag. -/
structure CaptureState where
  pending : Str
  emitted : List Str
  chanLen : Nat
  rawPCM : Str
  bytes : Nat
  stopped : Bool
deriving DecidableEq, Repr

/-- A fresh capture (StartCapture). -/
def initCapture : CaptureState := ⟨[], [], 0, [], 0, false⟩

/-- The chunking loop of onPCM: drain the pending buffer into chunkSizeBytes
slices, in order, leaving the short remainder pending. -/
def drainPending (p : Str) : List Str × Str :=
  if h : chunkSizeBytes ≤ p.length then
    let rest := drainPending (p.drop chunkSizeBytes)
    (p.take chunkSizeBytes :: rest.1, rest.2)
  else ([], p)
termination_by p.length
decreasing_by
  simp only [List.length_drop, chunkSizeBytes] at *
  omega

/-- onPCM (audio/pulse.go): empty buffers are ignored; after stop the delivery
is dropped (io.EOF to the writer); otherwise the buffer is mirrored, counted,
appended to pending, and full chunks are sent to the channel in order. Each of
these sends blocks until the channel has room, so no chunk is lost here; the
occupancy recorded below is the one reached if the consumer takes nothing
during the delivery, and interleaved consumer receives are separate
consume steps of the session. -/
def onPCM (s : CaptureState) (buffer : Str) : CaptureState :=
  if buffer = [] then s
  else if s.stopped then s
  else
    let pending := s.pending ++ buffer
    let d := drainPending pending
    { pending := d.2
      emitted := s.emitted ++ d.1
      chanLen := s.chanLen + d.1.length
      rawPCM := s.rawPCM ++ buffer
      bytes := s.bytes + buffer.length
      stopped := false }

/-- Stop (audio/pulse.go): idempotent; the non-empty residual pending bytes
are offered to the channel with a non-blocking select: the residual chunk is
sent only when the channel has room below its capacity, and the select's
default branch silently drops it when the channel is full. -/
def Stop (s : CaptureState) : CaptureState :=
  if s.stopped then s
  else if s.pending = [] then { s with stopped := true }
  else if s.chanLen < chanCapacity then
    { s with stopped := true, pending := [],
             emitted := s.emitted ++ [s.pending], chanLen := s.chanLen + 1 }
  else { s with stopped := true, pending := [] }

/-- One step of a capture session: a source delivery into onPCM, or the
consumer receiving one chunk from the channel. -/
inductive CaptureOp where
  | deliver (buffer : Str)
  | consume
deriving DecidableEq, Repr

/-- Apply one session step. A consume on an empty channel (which would block)
is a no-op. -/
def applyOp (s : CaptureState) : CaptureOp → CaptureState
  | CaptureOp.deliver b => onPCM s b
  | CaptureOp.consume => { s with chanLen := s.chanLen - 1 }

/-- One capture session: a sequence of deliveries and consumer receives. -/
def runOps (s : CaptureState) (ops : List CaptureOp) : CaptureState :=
  ops.foldl applyOp s

/-- The bytes a session delivers from the source. -/
def deliveredStream : List CaptureOp → Str
  | [] => []
  | CaptureOp.deliver b :: rest => b ++ deliveredStream rest
  | CaptureOp.consume :: rest => deliveredStream rest

end Sotto.audio

namespace Sotto.riva

/-- The send-side flags of a Stream (riva/client.go) read under the mutex. -/
structure SendState where
  closedSend : Bool
  recvErr : Option Nat
deriving DecidableEq, Repr

/-- The errors SendAudio can return. -/
inductive SendError where
  | closedForSending
  | recvLoopFailed (code : Nat)
  | sendFailed (code : Nat)
deriving DecidableEq, Repr

/-- SendAudio (riva/client.go): empty chunks are a no-op; a send-closed stream
refuses; a recorded receive-loop error is surfaced; otherwise the outcome is
the underlying gRPC send's (modelled by the grpcErr oracle). -/
def SendAudio (s : SendState) (chunk : Str) (grpcErr : Option Nat) : Option SendError :=
  if chunk = [] then none
  else if s.closedSend then some .closedForSending
  else
    match s.recvErr with
    | some code => some (.recvLoopFailed code)
    | none => grpcErr.map .sendFailed

/-- Both CloseAndCollect and Cancel (riva/client.go) first mark the stream
send-closed under the mutex. -/
def markSendClosed (s : SendState) : SendState := { s with closedSend := true }

end Sotto.riva

namespace Sotto.session

open Sotto

/-- StopResult (session/transcriber.go). -/
structure StopResult where
  transcript : Str
  audioDevice : Str
  bytesCaptured : Nat
  grpcLatency : Nat
deriving DecidableEq, Repr

/-- The error values a Run result can carry (session/session.go). -/
inductive SessionError where
  | fsmFailure (e : fsm.TransitionError)
  | startFailure (code : Nat)
  | ctxCancelled
  | stopFailure (code : Nat)
  | emptyTranscript
  | commitFailure (code : Nat)
  | unknownAction (a : Nat)
deriving DecidableEq, Repr

/-- What Run's select observes: context cancellation, a cancel action, a stop
action (with the pipeline's StopAndTranscribe outcome and the committer's
outcome), or an out-of-range action value (the switch's default arm). -/
inductive WaitOutcome where
  | ctxDone
  | cancelAction
  | stopAction (stopRes : StopResult) (stopErr : Option Nat) (commitErr : Option Nat)
  | otherAction (a : Nat)
deriving DecidableEq, Repr

/-- One Run's environment: the transcriber Start outcome and the awaited
select outcome. -/
structure RunEnv where
  startErr : Option Nat
  wait : WaitOutcome
deriving DecidableEq, Repr

/-- session.Result, with times as readings of a monotone clock. -/
structure RunResult where
  state : String
  transcript : Str
  cancelled : Bool
  err : Option SessionError
  audioDevice : Str
  bytesCaptured : Nat
  grpcLatency : Nat
  startedAt : Nat
  finishedAt : Nat
deriving DecidableEq, Repr

/-- Side effects of one Run that the claims observe. -/
structure RunEffects where
  commitCalls : Nat
  cueStop : Nat
  cueComplete : Nat
  cueCancel : Nat
deriving DecidableEq, Repr

/-- No side effects yet. -/
def noEffects : RunEffects := ⟨0, 0, 0, 0⟩

/-- Controller.transition (session/session.go): apply one FSM event, keeping
the state unchanged when the event is rejected. -/
def ctrlTransition (st e : String) : String × Option fsm.TransitionError :=
  match fsm.Transition st e with
  | (next, none) => (next, none)
  | (_, some err) => (st, some err)

/-- toErrorAndReset (session/session.go): fail then reset, best effort. -/
def toErrorAndReset (st : String) : String :=
  (ctrlTransition (ctrlTransition st "fail").1 "reset").1

/-- Controller.Run (session/session.go) as a function of the initial FSM
state, the environment and the clock: the returned Result, the observed side
effects, and the controller's final state. -/
def controllerRun (s0 : String) (env : RunEnv) (t0 : Nat) :
    RunResult × RunEffects × String :=
  match ctrlTransition s0 "start" with
  | (st1, some e) =>
    (⟨st1, [], false, some (.fsmFailure e), [], 0, 0, t0, t0 + 1⟩, noEffects, st1)
  | (st1, none) =>
    match env.startErr with
    | some code =>
      let st2 := toErrorAndReset st1
      (⟨st2, [], false, some (.startFailure code), [], 0, 0, t0, t0 + 1⟩, noEffects, st2)
    | none =>
      match env.wait with
      | .ctxDone =>
        let st2 := toErrorAndReset st1
        (⟨st2, [], false, some .ctxCancelled, [], 0, 0, t0, t0 + 1⟩,
         { noEffects with cueCancel := 1 }, st2)
      | .cancelAction =>
        let st2 := (ctrlTransition st1 "cancel").1
        (⟨st2, [], true, none, [], 0, 0, t0, t0 + 1⟩,
         { noEffects with cueCancel := 1 }, st2)
      | .otherAction a =>
        let st2 := toErrorAndReset st1
        (⟨st2, [], false, some (.unknownAction a), [], 0, 0, t0, t0 + 1⟩, noEffects, st2)
      | .stopAction sr stopErr commitErr =>
        match ctrlTransition st1 "stop" with
        | (st2, some e) =>
          let st3 := toErrorAndReset st2
          (⟨st3, [], false, some (.fsmFailure e), [], 0, 0, t0, t0 + 1⟩, noEffects, st3)
        | (st2, none) =>
          match stopErr with
          | some code =>
            let st3 := toErrorAndReset st2
            (⟨st3, [], false, some (.stopFailure code), sr.audioDevice, sr.bytesCaptured,
              sr.grpcLatency, t0, t0 + 1⟩, { noEffects with cueStop := 1 }, st3)
          | none =>
            if trimSpace sr.transcript = [] then
              let st3 := toErrorAndReset st2
              (⟨st3, sr.transcript, false, some .emptyTranscript, sr.audioDevice,
                sr.bytesCaptured, sr.grpcLatency, t0, t0 + 1⟩,
               { noEffects with cueStop := 1 }, st3)
            else
              match commitErr with
              | some code =>
                let st3 := toErrorAndReset st2
                (⟨st3, sr.transcript, false, some (.commitFailure code), sr.audioDevice,
                  sr.bytesCaptured, sr.grpcLatency, t0, t0 + 1⟩,
                 { noEffects with commitCalls := 1, cueStop := 1 }, st3)
              | none =>
                match ctrlTransition st2 "transcribed" with
                | (st3, some e) =>
                  (⟨st3, sr.transcript, false, some (.fsmFailure e), sr.audioDevice,
                    sr.bytesCaptured, sr.grpcLatency, t0, t0 + 1⟩,
                   { noEffects with commitCalls := 1, cueStop := 1, cueComplete := 1 }, st3)
                | (st3, none) =>
                  (⟨st3, sr.transcript, false, none, sr.audioDevice, sr.bytesCaptured,
                    sr.grpcLatency, t0, t0 + 1⟩,
                   { noEffects with commitCalls := 1, cueStop := 1, cueComplete := 1 }, st3)

end Sotto.session

namespace Sotto.transcript

open Sotto

/-- Unicode simplified to the ASCII and Latin-1 range the pipeline touches:
uppercase and lowercase maps and the character classes used by the scanner
(part_030) and the pronoun pass (pronoun_case.go). -/
def up (c : Nat) : Nat := if 97 ≤ c ∧ c ≤ 122 then c - 32 else c
def isLetter (c : Nat) : Bool := (65 ≤ c && c ≤ 90) || (97 ≤ c && c ≤ 122)
def isUpper (c : Nat) : Bool := 65 ≤ c && c ≤ 90
end Sotto.transcript

namespace Sotto

/-- The four named FSM states. -/
def namedStates : List String := ["idle", "recording", "transcribing", "error"]

/-- The six FSM events. -/
def fsmEvents : List String := ["start", "stop", "cancel", "transcribed", "fail", "reset"]

/-- The five valid non-fail transitions of the table in section 4.1. -/
def validPairs : List (String × String) :=
  [("idle", "start"), ("recording", "stop"), ("recording", "cancel"),
   ("transcribing", "transcribed"), ("error", "reset")]

/-- C2: Transition agrees with the section 4.1 table: fail from any state
yields error; the five valid pairs produce their table successors; every other
named-state/event combination returns the state unchanged with an invalid
transition error; a state outside the four named states (with a non-fail
event) yields an unknown-state error. -/
theorem fsm_transition_matches_table :
    (∀ s : String, fsm.Transition s "fail" = ("error", none)) ∧
    fsm.Transition "idle" "start" = ("recording", none) ∧
    fsm.Transition "recording" "stop" = ("transcribing", none) ∧
    fsm.Transition "recording" "cancel" = ("idle", none) ∧
    fsm.Transition "transcribing" "transcribed" = ("idle", none) ∧
    fsm.Transition "error" "reset" = ("idle", none) ∧
    (∀ s e : String, s ∈ namedStates → e ∈ fsmEvents → e ≠ "fail" →
      (s, e) ∉ validPairs →
      fsm.Transition s e = (s, some (.invalid s e))) ∧
    (∀ s : String, s ∉ namedStates → ∀ e : String, e ≠ "fail" →
      fsm.Transition s e = (s, some (.unknown s))) := by
  refine ⟨fun s => by simp [fsm.Transition], rfl, rfl, rfl, rfl, rfl, ?_, ?_⟩
  · intro s e hs he hef hne
    fin_cases hs <;> fin_cases he <;>
      first
        | exact absurd rfl hef
        | exact absurd (by decide) hne
        | rfl
  · intro s hs e hef
    simp only [namedStates, List.mem_cons, List.not_mem_nil, or_false, not_or] at hs
    obtain ⟨h1, h2, h3, h4⟩ := hs
    simp [fsm.Transition, hef, h1, h2, h3, h4]

end Sotto

namespace Sotto.riva

/-- C5 counterexample: after the stream is marked send-closed, SendAudio with
an empty chunk still returns no error (the empty-chunk no-op runs before the
closed-send check), falsifying "returns an error for every chunk argument". -/
theorem send_audio_after_close_empty_chunk_counterexample :
    SendAudio (markSendClosed ⟨false, none⟩) [] none = none ∧
    (none : Option SendError) ≠ some .closedForSending := by
  constructor
  · rfl
  · decide

/-- C5 amended: after a stream is marked send-closed (as CloseAndCollect and
Cancel do first), every SendAudio call with a non-empty chunk returns the
closed-for-sending error, whatever the receive state and gRPC outcome. -/
theorem send_audio_after_close_errors (s : SendState) (chunk : Str)
    (grpcErr : Option Nat) (h : chunk ≠ []) :
    SendAudio (markSendClosed s) chunk grpcErr = some .closedForSending := by
  simp [SendAudio, markSendClosed, h]

/-- Witness for send_audio_after_close_errors at a concrete chunk. -/
theorem send_audio_after_close_errors_witness :
    SendAudio (markSendClosed ⟨false, none⟩) [1, 2, 3] none = some .closedForSending :=
  send_audio_after_close_errors ⟨false, none⟩ [1, 2, 3] none (by decide)

/-- C1: a non-final (interim) recognition result whose cleaned alternative
text t is non-empty leaves the committed segments unchanged and replaces
lastInterim with t; only collectSegments may feed a tail interim through
appendSegment, and it does so exactly when the cleaned interim is non-empty. -/
theorem interim_replaces_last_interim (s : StreamMergeState) (r : RivaResult)
    (a : Str) (rest : List Str)
    (hfin : r.isFinal = false) (halt : r.alternatives = a :: rest)
    (hne : cleanSegment a ≠ []) :
    (recordResult s r).segments = s.segments ∧
    (recordResult s r).lastInterim = cleanSegment a ∧
    (∀ st : StreamMergeState,
      collectSegments st.segments st.lastInterim =
        if cleanSegment st.lastInterim = [] then st.segments
        else appendSegment st.segments (cleanSegment st.lastInterim)) := by
  refine ⟨?_, ?_, ?_⟩
  · simp [recordResult, halt, hfin, hne]
  · simp [recordResult, halt, hfin, hne]
  · exact fun st => rfl

/-- Witness for interim_replaces_last_interim at a concrete stream state. -/
theorem interim_replaces_last_interim_witness :
    (recordResult ⟨[strOf "hello"], strOf "old"⟩ ⟨false, [strOf " hi  there "]⟩).segments
        = [strOf "hello"] ∧
    (recordResult ⟨[strOf "hello"], strOf "old"⟩ ⟨false, [strOf " hi  there "]⟩).lastInterim
        = cleanSegment (strOf " hi  there ") := by
  have h := interim_replaces_last_interim ⟨[strOf "hello"], strOf "old"⟩
    ⟨false, [strOf " hi  there "]⟩ (strOf " hi  there ") [] rfl rfl (by decide)
  exact ⟨h.1, h.2.1⟩

/-- The six-rule append_segment policy of section 4.2, written from the
spec's words over the actual last element. -/
def appendSegmentPolicy (segments : List Str) (t : Str) : List Str :=
  match segments.getLast? with
  | none => segments ++ [t]
  | some last =>
    if t = last then segments
    else if last.isPrefixOf t then segments.dropLast ++ [t]
    else if t.isPrefixOf last then segments
    else segments ++ [t]

/-- C3: on a committed segments list (every element whitespace-normalized) and
a whitespace-normalized non-empty candidate t, appendSegment behaves exactly
as the six-rule policy states. -/
theorem append_segment_policy_agrees (segments : List Str) (t : Str)
    (hsegs : ∀ x ∈ segments, cleanSegment x = x)
    (ht : cleanSegment t = t) (hne : t ≠ []) :
    appendSegment segments t = appendSegmentPolicy segments t := by
  simp only [appendSegment, appendSegmentPolicy, ht, if_neg hne]
  cases hl : segments.getLast? with
  | none => rfl
  | some lastRaw =>
    have hmem : lastRaw ∈ segments := by
      obtain ⟨hne2, heq⟩ := List.mem_getLast?_eq_getLast (Option.mem_def.mpr hl)
      exact heq ▸ List.getLast_mem hne2
    simp only [hsegs lastRaw hmem]

/-- Witness for append_segment_policy_agrees at a concrete prefix extension. -/
theorem append_segment_policy_agrees_witness :
    appendSegment [strOf "hello"] (strOf "hello world") =
      appendSegmentPolicy [strOf "hello"] (strOf "hello world") :=
  append_segment_policy_agrees [strOf "hello"] (strOf "hello world")
    (by intro x hx; simp at hx; subst hx; decide) (by decide) (by decide)

end Sotto.riva

namespace Sotto.session

open Sotto

/-- C6: when Run (from idle, with a successful pipeline start) serves a stop
action whose StopAndTranscribe succeeds but whose transcript trims to empty,
the Result carries the EmptyTranscript error, the committer is never invoked,
and the controller ends (and reports) state idle. -/
theorem empty_transcript_result (sr : StopResult) (commitErr : Option Nat) (t0 : Nat)
    (hempty : trimSpace sr.transcript = []) :
    (controllerRun "idle" ⟨none, .stopAction sr none commitErr⟩ t0).1.err =
        some .emptyTranscript ∧
    (controllerRun "idle" ⟨none, .stopAction sr none commitErr⟩ t0).2.1.commitCalls = 0 ∧
    (controllerRun "idle" ⟨none, .stopAction sr none commitErr⟩ t0).2.2 = "idle" ∧
    (controllerRun "idle" ⟨none, .stopAction sr none commitErr⟩ t0).1.state = "idle" := by
  simp [controllerRun, ctrlTransition, fsm.Transition, toErrorAndReset, hempty, noEffects]

/-- Witness for empty_transcript_result on a whitespace-only transcript. -/
theorem empty_transcript_result_witness :
    (controllerRun "idle" ⟨none, .stopAction ⟨strOf "  ", [], 0, 0⟩ none none⟩ 0).1.err =
        some .emptyTranscript ∧
    (controllerRun "idle" ⟨none, .stopAction ⟨strOf "  ", [], 0, 0⟩ none none⟩ 0).2.1.commitCalls = 0 ∧
    (controllerRun "idle" ⟨none, .stopAction ⟨strOf "  ", [], 0, 0⟩ none none⟩ 0).2.2 = "idle" ∧
    (controllerRun "idle" ⟨none, .stopAction ⟨strOf "  ", [], 0, 0⟩ none none⟩ 0).1.state = "idle" :=
  empty_transcript_result ⟨strOf "  ", [], 0, 0⟩ none 0 (by decide)

/-- C7: every Result of Run satisfies FinishedAt >= StartedAt, and exactly one
of {ok commit (no error, not cancelled), cancelled (with no error), error (not
cancelled)} holds; the three disjuncts are pairwise exclusive by construction. -/
theorem run_result_exactly_one (s0 : String) (env : RunEnv) (t0 : Nat) :
    (controllerRun s0 env t0).1.startedAt ≤ (controllerRun s0 env t0).1.finishedAt ∧
    (((controllerRun s0 env t0).1.err = none ∧ (controllerRun s0 env t0).1.cancelled = false) ∨
     ((controllerRun s0 env t0).1.cancelled = true ∧ (controllerRun s0 env t0).1.err = none) ∨
     ((controllerRun s0 env t0).1.err ≠ none ∧ (controllerRun s0 env t0).1.cancelled = false)) := by
  obtain ⟨startErr, wait⟩ := env
  simp only [controllerRun]
  repeat' split
  all_goals simp

end Sotto.session

namespace Sotto.audio

open Sotto

/-- The chunking drain keeps order, emits exact chunks, and leaves a short
remainder. -/
theorem drainPending_spec (p : Str) :
    (drainPending p).1.flatten ++ (drainPending p).2 = p ∧
    (∀ c ∈ (drainPending p).1, c.length = chunkSizeBytes) ∧
    (drainPending p).2.length < chunkSizeBytes := by
  suffices H : ∀ (n : Nat) (q : Str), q.length ≤ n →
      (drainPending q).1.flatten ++ (drainPending q).2 = q ∧
      (∀ c ∈ (drainPending q).1, c.length = chunkSizeBytes) ∧
      (drainPending q).2.length < chunkSizeBytes from H p.length p le_rfl
  intro n
  induction n with
  | zero =>
    intro q hq
    have hq0 : q = [] := List.length_eq_zero.mp (Nat.le_zero.mp hq)
    subst hq0
    rw [drainPending]
    simp [chunkSizeBytes]
  | succ n ih =>
    intro q hq
    rw [drainPending]
    by_cases h : chunkSizeBytes ≤ q.length
    · simp only [dif_pos h]
      have hlt : (q.drop chunkSizeBytes).length ≤ n := by
        rw [List.length_drop]
        simp only [chunkSizeBytes] at *
        omega
      obtain ⟨i1, i2, i3⟩ := ih (q.drop chunkSizeBytes) hlt
      refine ⟨?_, ?_, i3⟩
      · show q.take chunkSizeBytes ++ _ ++ _ = q
        rw [List.append_assoc, i1, List.take_append_drop]
      · intro c hc
        rcases List.mem_cons.mp hc with h1 | h1
        · subst h1; rw [List.length_take]; omega
        · exact i2 c h1
    · simp only [dif_neg h]
      exact ⟨by simp, by simp, by omega⟩

/-- The sequential capture invariant maintained by the session steps before
Stop. -/
def CaptureInv (s : CaptureState) : Prop :=
  s.stopped = false ∧ s.pending.length < chunkSizeBytes ∧
  (∀ c ∈ s.emitted, c.length = chunkSizeBytes) ∧
  s.emitted.flatten ++ s.pending = s.rawPCM ∧
  s.bytes = s.rawPCM.length

theorem initCapture_inv : CaptureInv initCapture := by
  refine ⟨rfl, ?_, ?_, rfl, rfl⟩ <;> simp [initCapture, chunkSizeBytes]

theorem onPCM_inv {s : CaptureState} (h : CaptureInv s) (b : Str) :
    CaptureInv (onPCM s b) ∧ (onPCM s b).rawPCM = s.rawPCM ++ b := by
  obtain ⟨hstop, hpend, hlen, hjoin, hbytes⟩ := h
  by_cases hb : b = []
  · have heq : onPCM s b = s := by simp [onPCM, hb]
    rw [heq]
    exact ⟨⟨hstop, hpend, hlen, hjoin, hbytes⟩, by simp [hb]⟩
  · have heq : onPCM s b =
        { pending := (drainPending (s.pending ++ b)).2
          emitted := s.emitted ++ (drainPending (s.pending ++ b)).1
          chanLen := s.chanLen + (drainPending (s.pending ++ b)).1.length
          rawPCM := s.rawPCM ++ b
          bytes := s.bytes + b.length
          stopped := false } := by
      simp [onPCM, hb, hstop]
    obtain ⟨d1, d2, d3⟩ := drainPending_spec (s.pending ++ b)
    rw [heq]
    refine ⟨⟨rfl, d3, ?_, ?_, ?_⟩, rfl⟩
    · intro c hc
      rcases List.mem_append.mp hc with h1 | h1
      · exact hlen c h1
      · exact d2 c h1
    · show (s.emitted ++ _).flatten ++ _ = s.rawPCM ++ b
      rw [List.flatten_append, List.append_assoc, d1, ← List.append_assoc, hjoin]
    · show s.bytes + b.length = (s.rawPCM ++ b).length
      rw [hbytes, List.length_append]

/-- A session preserves the invariant and mirrors the delivered stream. -/
theorem runOps_inv : ∀ (ops : List CaptureOp) (s : CaptureState), CaptureInv s →
    CaptureInv (runOps s ops) ∧
    (runOps s ops).rawPCM = s.rawPCM ++ deliveredStream ops := by
  intro ops
  induction ops with
  | nil => intro s h; exact ⟨h, by simp [runOps, deliveredStream]⟩
  | cons op rest ih =>
    intro s h
    cases op with
    | deliver b =>
      obtain ⟨h1, h2⟩ := onPCM_inv h b
      obtain ⟨h3, h4⟩ := ih (onPCM s b) h1
      refine ⟨h3, ?_⟩
      show (runOps (onPCM s b) rest).rawPCM = _
      rw [h4, h2, List.append_assoc]
      rfl
    | consume =>
      have hc : CaptureInv { s with chanLen := s.chanLen - 1 } := h
      obtain ⟨h3, h4⟩ := ih _ hc
      refine ⟨h3, ?_⟩
      show (runOps { s with chanLen := s.chanLen - 1 } rest).rawPCM = _
      rw [h4]
      rfl

theorem drainPending_small (p : Str) (h : p.length < chunkSizeBytes) :
    drainPending p = ([], p) := by
  rw [drainPending, dif_neg (by omega)]

theorem drainPending_replicate (c : Nat) :
    ∀ k, drainPending (List.replicate (k * chunkSizeBytes) c)
      = (List.replicate k (List.replicate chunkSizeBytes c), []) := by
  intro k
  induction k with
  | zero => simp [drainPending_small, chunkSizeBytes]
  | succ k ih =>
    have hsplit : (k + 1) * chunkSizeBytes = chunkSizeBytes + k * chunkSizeBytes := by ring
    rw [hsplit, List.replicate_add, drainPending,
        dif_pos (by simp)]
    have htake : (List.replicate chunkSizeBytes c ++
        List.replicate (k * chunkSizeBytes) c).take chunkSizeBytes
          = List.replicate chunkSizeBytes c := by
      rw [List.take_append_of_le_length (by simp), List.take_replicate]
      simp
    have hdrop : (List.replicate chunkSizeBytes c ++
        List.replicate (k * chunkSizeBytes) c).drop chunkSizeBytes
          = List.replicate (k * chunkSizeBytes) c := by
      rw [List.drop_append_of_le_length (by simp), List.drop_replicate]
      simp
    rw [htake, hdrop, ih]
    simp [List.replicate_succ]

theorem flatten_replicate_chunks (c : Nat) :
    ∀ k, (List.replicate k (List.replicate chunkSizeBytes c)).flatten
      = List.replicate (k * chunkSizeBytes) c := by
  intro k
  induction k with
  | zero => simp
  | succ k ih =>
    rw [List.replicate_succ, List.flatten_cons, ih,
        show (k + 1) * chunkSizeBytes = chunkSizeBytes + k * chunkSizeBytes by ring,
        List.replicate_add]

theorem onPCM_eq (s : CaptureState) (b : Str) (hb : b ≠ []) (hs : s.stopped = false) :
    onPCM s b = { pending := (drainPending (s.pending ++ b)).2
                  emitted := s.emitted ++ (drainPending (s.pending ++ b)).1
                  chanLen := s.chanLen + (drainPending (s.pending ++ b)).1.length
                  rawPCM := s.rawPCM ++ b
                  bytes := s.bytes + b.length
                  stopped := false } := by
  simp [onPCM, hb, hs]

/-- A first delivery of k full chunks fills the channel with k chunks. -/
theorem onPCM_initial_replicate (c k : Nat) (hk : 0 < k) :
    onPCM initCapture (List.replicate (k * chunkSizeBytes) c)
      = { pending := []
          emitted := List.replicate k (List.replicate chunkSizeBytes c)
          chanLen := k
          rawPCM := List.replicate (k * chunkSizeBytes) c
          bytes := k * chunkSizeBytes
          stopped := false } := by
  have hne : List.replicate (k * chunkSizeBytes) c ≠ [] := by
    intro h
    have hl := congrArg List.length h
    rw [List.length_replicate, List.length_nil] at hl
    have hpos : 0 < k * chunkSizeBytes := Nat.mul_pos hk (by rw [chunkSizeBytes]; omega)
    omega
  rw [onPCM_eq initCapture _ hne rfl,
      show initCapture.pending ++ List.replicate (k * chunkSizeBytes) c
        = List.replicate (k * chunkSizeBytes) c from List.nil_append _,
      drainPending_replicate c k]
  simp only [initCapture, List.nil_append, List.append_nil, List.length_replicate,
    Nat.zero_add, Nat.add_zero]

/-- A short delivery onto a drained state only grows the pending buffer. -/
theorem onPCM_small (b : Str) (E : List Str) (n : Nat) (R : Str) (B : Nat)
    (hb : b ≠ []) (hsmall : b.length < chunkSizeBytes) :
    onPCM ⟨[], E, n, R, B, false⟩ b = ⟨b, E, n, R ++ b, B + b.length, false⟩ := by
  rw [onPCM_eq _ _ hb rfl,
      show (⟨[], E, n, R, B, false⟩ : CaptureState).pending ++ b = b from List.nil_append _,
      drainPending_small b hsmall]
  simp only [List.append_nil, List.length_nil, Nat.add_zero]

theorem runOps_nil (s : CaptureState) : runOps s [] = s := rfl

theorem runOps_cons (s : CaptureState) (op : CaptureOp) (ops : List CaptureOp) :
    runOps s (op :: ops) = runOps (applyOp s op) ops := rfl

theorem applyOp_deliver (s : CaptureState) (b : Str) :
    applyOp s (CaptureOp.deliver b) = onPCM s b := rfl

/-- The final state of a session that fills the channel to capacity (128
chunks sent, none consumed) and leaves a 100-byte residual before Stop. -/
def residualDropFinal : CaptureState :=
  Stop (runOps initCapture
    [CaptureOp.deliver (List.replicate (chanCapacity * chunkSizeBytes) 0),
     CaptureOp.deliver (List.replicate 100 1)])

/-- C4 counterexample: when the chunks channel is full at Stop time (128
chunks sent, consumer never received), the non-blocking residual send in
Stop (select with a default branch) silently drops the 100-byte residual:
the byte counter sees all 82020 delivered bytes, every emitted chunk is a
full 640-byte chunk, and the concatenation of the emitted chunks is the
captured stream short of its final 100 bytes, not the captured stream. -/
theorem capture_residual_dropped_counterexample :
    residualDropFinal.bytes = chanCapacity * chunkSizeBytes + 100 ∧
    residualDropFinal.rawPCM
      = List.replicate (chanCapacity * chunkSizeBytes) 0 ++ List.replicate 100 1 ∧
    residualDropFinal.emitted.flatten
      = List.replicate (chanCapacity * chunkSizeBytes) 0 ∧
    residualDropFinal.emitted.flatten ≠ residualDropFinal.rawPCM := by
  have hres_ne : List.replicate 100 1 ≠ ([] : Str) := by
    intro h
    have hl := congrArg List.length h
    rw [List.length_replicate, List.length_nil] at hl
    omega
  have hfirst := onPCM_initial_replicate 0 chanCapacity (by rw [chanCapacity]; omega)
  have h1 : runOps initCapture
      [CaptureOp.deliver (List.replicate (chanCapacity * chunkSizeBytes) 0),
       CaptureOp.deliver (List.replicate 100 1)]
      = { pending := List.replicate 100 1
          emitted := List.replicate chanCapacity (List.replicate chunkSizeBytes 0)
          chanLen := chanCapacity
          rawPCM := List.replicate (chanCapacity * chunkSizeBytes) 0 ++ List.replicate 100 1
          bytes := chanCapacity * chunkSizeBytes + 100
          stopped := false } := by
    have hfold : runOps initCapture
        [CaptureOp.deliver (List.replicate (chanCapacity * chunkSizeBytes) 0),
         CaptureOp.deliver (List.replicate 100 1)]
        = onPCM (onPCM initCapture (List.replicate (chanCapacity * chunkSizeBytes) 0))
            (List.replicate 100 1) := by
      rw [runOps_cons, runOps_cons, runOps_nil, applyOp_deliver, applyOp_deliver]
    rw [hfold, hfirst,
        onPCM_small (List.replicate 100 1) _ _ _ _ hres_ne
          (by rw [List.length_replicate, chunkSizeBytes]; omega),
        List.length_replicate]
  have h2 : residualDropFinal
      = { pending := []
          emitted := List.replicate chanCapacity (List.replicate chunkSizeBytes 0)
          chanLen := chanCapacity
          rawPCM := List.replicate (chanCapacity * chunkSizeBytes) 0 ++ List.replicate 100 1
          bytes := chanCapacity * chunkSizeBytes + 100
          stopped := true } := by
    rw [residualDropFinal, h1, Stop, if_neg Bool.false_ne_true, if_neg hres_ne,
        if_neg (lt_irrefl chanCapacity)]
  have hb : residualDropFinal.bytes = chanCapacity * chunkSizeBytes + 100 := by rw [h2]
  have hr : residualDropFinal.rawPCM
      = List.replicate (chanCapacity * chunkSizeBytes) 0 ++ List.replicate 100 1 := by rw [h2]
  have he : residualDropFinal.emitted
      = List.replicate chanCapacity (List.replicate chunkSizeBytes 0) := by rw [h2]
  have hflat : residualDropFinal.emitted.flatten
      = List.replicate (chanCapacity * chunkSizeBytes) 0 := by
    rw [he]
    exact flatten_replicate_chunks 0 chanCapacity
  refine ⟨hb, hr, hflat, ?_⟩
  intro hco
  rw [hflat, hr] at hco
  have hl := congrArg List.length hco
  rw [List.length_replicate, List.length_append, List.length_replicate,
      List.length_replicate] at hl
  omega

/-- C4, amended: for every capture session (any interleaving of source
deliveries and consumer receives followed by Stop) in which the channel is
not full when Stop runs, or there is no residual: bytes equals the total
delivered, each emitted chunk but the final residual is exactly 640 bytes,
chunks are non-empty and at most 640 bytes, their concatenation is the
captured byte stream in order, the non-empty residual is flushed exactly
once on Stop (a second Stop is a no-op), and post-stop deliveries are
dropped. When the channel is full and a residual is pending, Stop's
non-blocking send drops the residual instead (see the counterexample). -/
theorem capture_session_faithful (ops : List CaptureOp)
    (hroom : (runOps initCapture ops).pending = [] ∨
      (runOps initCapture ops).chanLen < chanCapacity) :
    (Stop (runOps initCapture ops)).bytes = (deliveredStream ops).length ∧
    (Stop (runOps initCapture ops)).emitted.flatten = deliveredStream ops ∧
    (∀ c ∈ (Stop (runOps initCapture ops)).emitted.dropLast,
        c.length = chunkSizeBytes) ∧
    (∀ c ∈ (Stop (runOps initCapture ops)).emitted,
        c ≠ [] ∧ c.length ≤ chunkSizeBytes) ∧
    ((runOps initCapture ops).pending = [] →
        (Stop (runOps initCapture ops)).emitted = (runOps initCapture ops).emitted) ∧
    ((runOps initCapture ops).pending ≠ [] →
        (Stop (runOps initCapture ops)).emitted
          = (runOps initCapture ops).emitted ++ [(runOps initCapture ops).pending]) ∧
    Stop (Stop (runOps initCapture ops)) = Stop (runOps initCapture ops) ∧
    (∀ b, onPCM (Stop (runOps initCapture ops)) b = Stop (runOps initCapture ops)) := by
  obtain ⟨⟨hstop, hpend, hlen, hjoin, hbytes⟩, hraw⟩ :=
    runOps_inv ops initCapture initCapture_inv
  set s := runOps initCapture ops with hs
  have hraw' : s.rawPCM = deliveredStream ops := by simpa [initCapture] using hraw
  have hchunk_ne : ∀ c : Str, c.length = chunkSizeBytes → c ≠ [] := by
    intro c hc hcn
    rw [hcn] at hc
    simp [chunkSizeBytes] at hc
  have hnots : ¬(s.stopped = true) := by simp [hstop]
  by_cases hp : s.pending = []
  · have hstopEq : Stop s = { s with stopped := true } := by
      rw [Stop, if_neg hnots, if_pos hp]
    have hstopped : (Stop s).stopped = true := by rw [hstopEq]
    have hemit : (Stop s).emitted = s.emitted := by rw [hstopEq]
    refine ⟨?_, ?_, ?_, ?_, fun _ => hemit, fun hne => absurd hp hne, ?_, ?_⟩
    · rw [hstopEq]
      show s.bytes = _
      rw [hbytes, hraw']
    · rw [hemit, ← hraw', ← hjoin, hp, List.append_nil]
    · intro c hc
      exact hlen c ((List.dropLast_sublist _).subset (hemit ▸ hc))
    · intro c hc
      rw [hemit] at hc
      exact ⟨hchunk_ne c (hlen c hc), le_of_eq (hlen c hc)⟩
    · rw [Stop, if_pos hstopped]
    · intro b
      by_cases hb : b = []
      · simp [onPCM, hb]
      · simp [onPCM, hb, hstopped]
  · have hroom' : s.chanLen < chanCapacity := hroom.resolve_left hp
    have hstopEq : Stop s =
        { s with stopped := true, pending := [],
                 emitted := s.emitted ++ [s.pending], chanLen := s.chanLen + 1 } := by
      rw [Stop, if_neg hnots, if_neg hp, if_pos hroom']
    have hstopped : (Stop s).stopped = true := by rw [hstopEq]
    have hemit : (Stop s).emitted = s.emitted ++ [s.pending] := by rw [hstopEq]
    refine ⟨?_, ?_, ?_, ?_, fun he => absurd he hp, fun _ => hemit, ?_, ?_⟩
    · rw [hstopEq]
      show s.bytes = _
      rw [hbytes, hraw']
    · rw [hemit, List.flatten_append, ← hraw', ← hjoin]
      simp
    · intro c hc
      rw [hemit, List.dropLast_concat] at hc
      exact hlen c hc
    · intro c hc
      rw [hemit] at hc
      rcases List.mem_append.mp hc with h1 | h1
      · exact ⟨hchunk_ne c (hlen c h1), le_of_eq (hlen c h1)⟩
      · rw [List.mem_singleton] at h1
        subst h1
        exact ⟨hp, le_of_lt hpend⟩
    · rw [Stop, if_pos hstopped]
    · intro b
      by_cases hb : b = []
      · simp [onPCM, hb]
      · simp [onPCM, hb, hstopped]

/-- Witness for capture_session_faithful: a short session with room in the
channel, whose three delivered bytes end up as the flushed residual chunk. -/
theorem capture_session_faithful_witness :
    ((runOps initCapture [CaptureOp.deliver [1, 2, 3]]).pending = [] ∨
      (runOps initCapture [CaptureOp.deliver [1, 2, 3]]).chanLen < chanCapacity) ∧
    (Stop (runOps initCapture [CaptureOp.deliver [1, 2, 3]])).emitted.flatten
      = deliveredStream [CaptureOp.deliver [1, 2, 3]] := by
  have hrun : runOps initCapture [CaptureOp.deliver [1, 2, 3]]
      = { pending := [1, 2, 3], emitted := [], chanLen := 0,
          rawPCM := [1, 2, 3], bytes := 3, stopped := false } := by
    show onPCM initCapture [1, 2, 3] = _
    rw [onPCM, if_neg (by simp)]
    simp only [initCapture, Bool.false_eq_true, if_false, List.nil_append]
    rw [drainPending_small _ (by simp [chunkSizeBytes])]
    simp
  have hroom : (runOps initCapture [CaptureOp.deliver [1, 2, 3]]).pending = [] ∨
      (runOps initCapture [CaptureOp.deliver [1, 2, 3]]).chanLen < chanCapacity := by
    rw [hrun]
    right
    simp [chanCapacity]
  exact ⟨hroom, (capture_session_faithful [CaptureOp.deliver [1, 2, 3]] hroom).2.1⟩

end Sotto.audio

namespace Sotto

/-- A word with no whitespace runes. -/
def allNonSp (w : Str) : Bool := w.all (fun c => !isSpc c)

/-- The shape of a normalized string, scanned with a previous-rune-was-space
flag (initially true, which also rejects a leading space): single 32
separators, no leading or trailing space. -/
def nfAux (prevSp : Bool) : Str → Bool
  | [] => !prevSp
  | c :: rest =>
    if isSpc c then (!prevSp && (c == 32) && nfAux true rest) else nfAux false rest

/-- Normal form: empty, or nfAux from the start. -/
def NF : Str → Bool
  | [] => true
  | s => nfAux true s

theorem fieldsAux_ne_nil (t : Str) : ∀ cur : Str, cur ≠ [] → fieldsAux cur t ≠ [] := by
  induction t with
  | nil => intro cur h; simp [fieldsAux, h]
  | cons c rest ih =>
    intro cur h
    rw [fieldsAux]
    by_cases hc : isSpc c
    · simp [hc, h]
    · simp only [hc, Bool.false_eq_true, if_false]
      exact ih (cur ++ [c]) (by simp)

theorem joinWords_cons_ne (w : Str) (ws : List Str) (hws : ws ≠ []) :
    joinWords (w :: ws) = w ++ 32 :: joinWords ws := by
  cases ws with
  | nil => exact absurd rfl hws
  | cons a l => rfl

/-- Joining the accumulated word and the fields of an nfAux-normal tail
restores the original string. -/
theorem joinWords_fieldsAux (n : Nat) : ∀ (t : Str), t.length ≤ n → ∀ (cur : Str),
    cur ≠ [] → nfAux false t = true → joinWords (fieldsAux cur t) = cur ++ t := by
  induction n with
  | zero =>
    intro t ht cur hcur _
    have : t = [] := List.length_eq_zero.mp (Nat.le_zero.mp ht)
    subst this
    rw [fieldsAux, if_neg hcur]
    simp [joinWords]
  | succ n ih =>
    intro t ht cur hcur hnf
    cases t with
    | nil =>
      rw [fieldsAux, if_neg hcur]
      simp [joinWords]
    | cons c rest =>
      rw [fieldsAux]
      by_cases hc : isSpc c
      · rw [nfAux] at hnf
        simp only [hc, if_true, Bool.not_false, Bool.true_and, Bool.and_eq_true,
          beq_iff_eq] at hnf
        obtain ⟨hc32, hrest⟩ := hnf
        cases rest with
        | nil => simp [nfAux] at hrest
        | cons d r2 =>
          rw [nfAux] at hrest
          by_cases hd : isSpc d
          · simp [hd] at hrest
          · simp only [hd, Bool.false_eq_true, if_false] at hrest
            simp only [hc, if_true, hcur, if_neg hcur]
            rw [fieldsAux]
            simp only [hd, Bool.false_eq_true, if_false, if_pos rfl]
            have hlen : r2.length ≤ n := by
              simp only [List.length_cons] at ht
              omega
            have hrec : joinWords (fieldsAux ([] ++ [d]) r2) = [d] ++ r2 :=
              ih r2 hlen ([] ++ [d]) (by simp) hrest
            rw [joinWords_cons_ne cur _ (fieldsAux_ne_nil r2 ([] ++ [d]) (by simp))]
            rw [hrec, hc32]
            simp
      · rw [nfAux] at hnf
        simp only [hc, Bool.false_eq_true, if_false] at hnf
        have hlen : rest.length ≤ n := by
          simp only [List.length_cons] at ht
          omega
        simp only [hc, Bool.false_eq_true, if_false]
        rw [ih rest hlen (cur ++ [c]) (by simp) hnf]
        simp

/-- A normal-form string is a fixed point of cleanSegment. -/
theorem cleanSegment_of_NF (s : Str) (h : NF s = true) : cleanSegment s = s := by
  cases s with
  | nil => rfl
  | cons c rest =>
    have h' : nfAux true (c :: rest) = true := h
    rw [nfAux] at h'
    by_cases hc : isSpc c
    · simp [hc] at h'
    · simp only [hc, Bool.false_eq_true, if_false] at h'
      show joinWords (fieldsAux [] (c :: rest)) = c :: rest
      rw [fieldsAux]
      simp only [hc, Bool.false_eq_true, if_false]
      have := joinWords_fieldsAux rest.length rest le_rfl ([] ++ [c]) (by simp) h'
      simpa using this

theorem fieldsAux_words_good (t : Str) : ∀ cur : Str, allNonSp cur = true →
    ∀ w ∈ fieldsAux cur t, w ≠ [] ∧ allNonSp w = true := by
  induction t with
  | nil =>
    intro cur hcur w hw
    rw [fieldsAux] at hw
    by_cases h : cur = []
    · simp [h] at hw
    · simp only [if_neg h, List.mem_singleton] at hw
      subst hw
      exact ⟨h, hcur⟩
  | cons c rest ih =>
    intro cur hcur w hw
    rw [fieldsAux] at hw
    by_cases hc : isSpc c
    · simp only [hc, if_true] at hw
      by_cases h : cur = []
      · simp only [h, if_pos rfl] at hw
        exact ih [] rfl w hw
      · simp only [if_neg h, List.mem_cons] at hw
        rcases hw with hw | hw
        · subst hw; exact ⟨h, hcur⟩
        · exact ih [] rfl w hw
    · simp only [hc, Bool.false_eq_true, if_false] at hw
      refine ih (cur ++ [c]) ?_ w hw
      rw [allNonSp] at *
      simp only [List.all_append, Bool.and_eq_true] at *
      exact ⟨hcur, by simp [hc]⟩

theorem nfAux_word_append (w : Str) : ∀ (b : Bool) (z : Str), w ≠ [] →
    allNonSp w = true → nfAux b (w ++ z) = nfAux false z := by
  induction w with
  | nil => intro b z h; exact absurd rfl h
  | cons c w' ih =>
    intro b z _ hns
    rw [allNonSp] at hns
    simp only [List.all_cons, Bool.and_eq_true, Bool.not_eq_true'] at hns
    obtain ⟨hc, hw'⟩ := hns
    show nfAux b (c :: (w' ++ z)) = nfAux false z
    rw [nfAux]
    simp only [hc, Bool.false_eq_true, if_false]
    cases w' with
    | nil => simp
    | cons d r => exact ih false z (by simp) hw'

theorem joinWords_ne_nil (w : Str) (ws : List Str) (h : w ≠ []) :
    joinWords (w :: ws) ≠ [] := by
  cases ws with
  | nil => exact h
  | cons a l =>
    rw [joinWords_cons_ne w (a :: l) (by simp)]
    intro hc
    cases w with
    | nil => exact h rfl
    | cons x xs => simp at hc

theorem NF_joinWords : ∀ ws : List Str,
    (∀ w ∈ ws, w ≠ [] ∧ allNonSp w = true) → NF (joinWords ws) = true := by
  intro ws
  induction ws with
  | nil => intro; rfl
  | cons w ws' ih =>
    intro hgood
    obtain ⟨hw, hns⟩ := hgood w (by simp)
    cases ws' with
    | nil =>
      show NF w = true
      cases w with
      | nil => rfl
      | cons c r =>
        show nfAux true (c :: r) = true
        have := nfAux_word_append (c :: r) true [] (by simp) hns
        simpa using this
    | cons w2 ws2 =>
      rw [joinWords_cons_ne w (w2 :: ws2) (by simp)]
      have hJ : NF (joinWords (w2 :: ws2)) = true := by
        refine ih ?_
        intro x hx
        exact hgood x (List.mem_cons_of_mem w hx)
      have hJne : joinWords (w2 :: ws2) ≠ [] :=
        joinWords_ne_nil w2 ws2 (hgood w2 (by simp)).1
      have hJ' : nfAux true (joinWords (w2 :: ws2)) = true := by
        rcases hj : joinWords (w2 :: ws2) with hmm | ⟨c, r⟩
        · exact absurd hj hJne
        · rw [hj] at hJ
          exact hJ
      show NF (w ++ 32 :: joinWords (w2 :: ws2)) = true
      have hne : w ++ 32 :: joinWords (w2 :: ws2) ≠ [] := by
        cases w <;> simp
      rcases he : w ++ 32 :: joinWords (w2 :: ws2) with hmm | ⟨c, r⟩
      · exact absurd he hne
      · show nfAux true (c :: r) = true
        rw [← he, nfAux_word_append w true _ hw hns]
        rw [nfAux]
        simp only [isSpc]
        simp [hJ']

/-- The fields of any string are non-empty space-free words. -/
theorem fields_words_good (s : Str) : ∀ w ∈ fields s, w ≠ [] ∧ allNonSp w = true :=
  fieldsAux_words_good s [] rfl

/-- cleanSegment lands in normal form. -/
theorem NF_cleanSegment (s : Str) : NF (cleanSegment s) = true :=
  NF_joinWords (fields s) (fields_words_good s)

/-- cleanSegment is idempotent. -/
theorem cleanSegment_idem (s : Str) : cleanSegment (cleanSegment s) = cleanSegment s :=
  cleanSegment_of_NF (cleanSegment s) (NF_cleanSegment s)

end Sotto

namespace Sotto.riva

open Sotto

/-- How one merger operation may change the committed list: it never shrinks,
entries other than the last are untouched, and the old last element survives
as a prefix of the entry at its position. -/
def SegmentsEvolve (old new : List Str) : Prop :=
  old.length ≤ new.length ∧
  List.IsPrefix old.dropLast new ∧
  (∀ h : old ≠ [], ∃ v rest, new = old.dropLast ++ v :: rest ∧
    List.IsPrefix (old.getLast h) v)

theorem segmentsEvolve_refl (l : List Str) : SegmentsEvolve l l := by
  refine ⟨le_rfl, List.dropLast_prefix l, ?_⟩
  intro h
  exact ⟨l.getLast h, [], (List.dropLast_append_getLast h).symm, List.prefix_refl _⟩

theorem segmentsEvolve_append (l : List Str) (t : Str) :
    SegmentsEvolve l (l ++ [t]) := by
  refine ⟨by simp, (List.dropLast_prefix l).trans (List.prefix_append l [t]), ?_⟩
  intro h
  refine ⟨l.getLast h, [t], ?_, List.prefix_refl _⟩
  conv_lhs => rw [← List.dropLast_append_getLast h]
  simp

theorem segmentsEvolve_replaceLast (l : List Str) (t : Str) (h : l ≠ [])
    (hpre : List.IsPrefix (l.getLast h) t) :
    SegmentsEvolve l (l.dropLast ++ [t]) := by
  refine ⟨?_, List.prefix_append _ _, fun _ => ⟨t, [], rfl, hpre⟩⟩
  have := List.dropLast_append_getLast h
  have hlen : l.dropLast.length + 1 = l.length := by
    conv_rhs => rw [← this]
    simp
  simp only [List.length_append, List.length_cons, List.length_nil]
  omega

/-- appendSegment preserves cleanliness of the committed list and only evolves
it (grow or extend the last element by a prefix-extension). -/
theorem appendSegment_evolve (segs : List Str) (t : Str)
    (h : ∀ x ∈ segs, x ≠ [] ∧ cleanSegment x = x) :
    (∀ x ∈ appendSegment segs t, x ≠ [] ∧ cleanSegment x = x) ∧
    SegmentsEvolve segs (appendSegment segs t) := by
  rw [appendSegment]
  by_cases hcl : cleanSegment t = []
  · simp only [hcl, if_pos rfl]
    exact ⟨h, segmentsEvolve_refl segs⟩
  · simp only [if_neg hcl]
    cases hl : segs.getLast? with
    | none =>
      have hnil : segs = [] := List.getLast?_eq_none_iff.mp hl
      subst hnil
      refine ⟨?_, segmentsEvolve_append [] (cleanSegment t)⟩
      intro x hx
      simp only [List.nil_append, List.mem_singleton] at hx
      subst hx
      exact ⟨hcl, cleanSegment_idem t⟩
    | some lastRaw =>
      have hne : segs ≠ [] := by
        intro hc
        subst hc
        simp at hl
      have hlast : segs.getLast hne = lastRaw := by
        have := List.getLast?_eq_getLast_of_ne_nil hne
        rw [hl] at this
        exact (Option.some_inj.mp this).symm
      have hmem : lastRaw ∈ segs := hlast ▸ List.getLast_mem hne
      have hclean : cleanSegment lastRaw = lastRaw := (h lastRaw hmem).2
      simp only [hclean]
      by_cases h1 : cleanSegment t = lastRaw
      · simp only [if_pos h1]
        exact ⟨h, segmentsEvolve_refl segs⟩
      · simp only [if_neg h1]
        by_cases h2 : lastRaw.isPrefixOf (cleanSegment t)
        · simp only [h2, if_true]
          constructor
          · intro x hx
            rcases List.mem_append.mp hx with hx | hx
            · exact h x ((List.dropLast_sublist segs).subset hx)
            · rw [List.mem_singleton] at hx
              subst hx
              exact ⟨hcl, cleanSegment_idem t⟩
          · exact segmentsEvolve_replaceLast segs (cleanSegment t) hne
              (hlast ▸ List.isPrefixOf_iff_prefix.mp h2)
        · simp only [h2, Bool.false_eq_true, if_false]
          by_cases h3 : (cleanSegment t).isPrefixOf lastRaw
          · simp only [h3, if_true]
            exact ⟨h, segmentsEvolve_refl segs⟩
          · simp only [h3, Bool.false_eq_true, if_false]
            constructor
            · intro x hx
              rcases List.mem_append.mp hx with hx | hx
              · exact h x hx
              · rw [List.mem_singleton] at hx
                subst hx
                exact ⟨hcl, cleanSegment_idem t⟩
            · exact segmentsEvolve_append segs (cleanSegment t)

theorem recordResult_evolve (s : StreamMergeState) (r : RivaResult)
    (h : ∀ x ∈ s.segments, x ≠ [] ∧ cleanSegment x = x) :
    (∀ x ∈ (recordResult s r).segments, x ≠ [] ∧ cleanSegment x = x) ∧
    SegmentsEvolve s.segments (recordResult s r).segments := by
  rw [recordResult]
  cases r.alternatives with
  | nil => exact ⟨h, segmentsEvolve_refl _⟩
  | cons a rest =>
    by_cases hcl : cleanSegment a = []
    · simp only [hcl, if_pos rfl]
      exact ⟨h, segmentsEvolve_refl _⟩
    · simp only [if_neg hcl]
      by_cases hf : r.isFinal
      · simp only [hf, if_true]
        exact appendSegment_evolve s.segments (cleanSegment a) h
      · simp only [hf, Bool.false_eq_true, if_false]
        exact ⟨h, segmentsEvolve_refl _⟩

theorem recordResultDivergence_evolve (s : StreamMergeState) (r : RivaResult)
    (h : ∀ x ∈ s.segments, x ≠ [] ∧ cleanSegment x = x) :
    (∀ x ∈ (recordResultDivergence s r).segments, x ≠ [] ∧ cleanSegment x = x) ∧
    SegmentsEvolve s.segments (recordResultDivergence s r).segments := by
  rw [recordResultDivergence]
  cases r.alternatives with
  | nil => exact ⟨h, segmentsEvolve_refl _⟩
  | cons a rest =>
    by_cases hcl : cleanSegment a = []
    · simp only [hcl, if_pos rfl]
      exact ⟨h, segmentsEvolve_refl _⟩
    · simp only [if_neg hcl]
      by_cases hf : r.isFinal
      · simp only [hf, if_true]
        exact appendSegment_evolve s.segments (cleanSegment a) h
      · simp only [hf, Bool.false_eq_true, if_false]
        by_cases hcommit :
            (s.lastInterim ≠ [] && !isInterimContinuation s.lastInterim (cleanSegment a)) = true
        · simp only [hcommit, if_true]
          exact appendSegment_evolve s.segments s.lastInterim h
        · simp only [hcommit, Bool.false_eq_true, if_false]
          exact ⟨h, segmentsEvolve_refl _⟩

/-- C10 invariant core: every reachable merger state has a clean, non-empty
committed list. -/
theorem reachable_cleanSegs (s : StreamMergeState) (h : Reachable s) :
    ∀ x ∈ s.segments, x ≠ [] ∧ cleanSegment x = x := by
  induction h with
  | init => intro x hx; simp at hx
  | record r _ ih => exact (recordResult_evolve _ r ih).1
  | recordDiv r _ ih => exact (recordResultDivergence_evolve _ r ih).1

/-- C10: in every reachable merger state the committed segments are non-empty
whitespace-normal fixed points of cleanSegment, and every operation
(either generation of recordResponse per result, and the close-time
collectSegments) only evolves the list: it never removes or reorders entries,
entries with a successor stay untouched, and the last entry changes only by
prefix extension. -/
theorem segments_invariant_reachable (s : StreamMergeState) (h : Reachable s) :
    (∀ x ∈ s.segments, x ≠ [] ∧ cleanSegment x = x) ∧
    (∀ r : RivaResult,
      SegmentsEvolve s.segments (recordResult s r).segments ∧
      SegmentsEvolve s.segments (recordResultDivergence s r).segments) ∧
    (∀ li : Str, SegmentsEvolve s.segments (collectSegments s.segments li)) := by
  have hclean := reachable_cleanSegs s h
  refine ⟨hclean, ?_, ?_⟩
  · intro r
    exact ⟨(recordResult_evolve s r hclean).2, (recordResultDivergence_evolve s r hclean).2⟩
  · intro li
    rw [collectSegments]
    by_cases hcl : cleanSegment li = []
    · simp only [hcl, if_pos rfl]
      exact segmentsEvolve_refl _
    · simp only [if_neg hcl]
      exact (appendSegment_evolve s.segments (cleanSegment li) hclean).2

/-- Witness for segments_invariant_reachable at a concrete reachable state. -/
theorem segments_invariant_reachable_witness :
    (∀ x ∈ (recordResult ⟨[], []⟩ ⟨true, [strOf "hello wor"]⟩).segments,
        x ≠ [] ∧ cleanSegment x = x) ∧
    SegmentsEvolve (recordResult ⟨[], []⟩ ⟨true, [strOf "hello wor"]⟩).segments
      (recordResult (recordResult ⟨[], []⟩ ⟨true, [strOf "hello wor"]⟩)
        ⟨true, [strOf "hello world"]⟩).segments := by
  have h := segments_invariant_reachable
    (recordResult ⟨[], []⟩ ⟨true, [strOf "hello wor"]⟩)
    (Reachable.record ⟨true, [strOf "hello wor"]⟩ Reachable.init)
  exact ⟨h.1, (h.2.1 ⟨true, [strOf "hello world"]⟩).1⟩

end Sotto.riva

namespace Sotto.transcript

open Sotto

theorem up_of_isUpper (c : Nat) (h : isUpper c = true) : up c = c := by
  unfold isUpper at h
  simp only [Bool.and_eq_true, decide_eq_true_eq] at h
  unfold up
  split_ifs <;> omega

theorem isLetter_of_isUpper (c : Nat) (h : isUpper c = true) : isLetter c = true := by
  unfold isUpper at h
  unfold isLetter
  simp only [Bool.and_eq_true, decide_eq_true_eq] at h
  simp only [Bool.or_eq_true, Bool.and_eq_true, decide_eq_true_eq]
  omega

theorem isLetter_not_terminal (c : Nat) (h : isLetter c = true) :
    (c == 46) = false ∧ (c == 33) = false ∧ (c == 63) = false := by
  unfold isLetter at h
  simp only [Bool.or_eq_true, Bool.and_eq_true, decide_eq_true_eq] at h
  refine ⟨?_, ?_, ?_⟩ <;> simp only [beq_eq_false_iff_ne, ne_eq] <;> omega

theorem isSpc_not_terminal (c : Nat) (h : isSpc c = true) :
    (c == 46) = false ∧ (c == 33) = false ∧ (c == 63) = false := by
  unfold isSpc at h
  simp only [Bool.or_eq_true, beq_iff_eq] at h
  have hc : c = 9 ∨ c = 10 ∨ c = 11 ∨ c = 12 ∨ c = 13 ∨ c = 32 ∨ c = 133 ∨ c = 160 := by
    tauto
  rcases hc with h2 | h2 | h2 | h2 | h2 | h2 | h2 | h2 <;> subst h2 <;> exact ⟨rfl, rfl, rfl⟩

/-- One rune of a later pass: unchanged or uppercased. -/
def upRel (a b : Nat) : Prop := b = a ∨ b = up a

/-- Pointwise: t is s with some runes uppercased. -/
def UpOf (s t : Str) : Prop := List.Forall₂ upRel s t

theorem UpOf.reverse {s t : Str} (h : UpOf s t) : UpOf s.reverse t.reverse :=
  List.rel_reverse h

theorem upRel_isUpper_of {a b : Nat} (h : upRel a b) (ha : isUpper a = true) : b = a := by
  rcases h with h | h
  · exact h
  · subst h
    exact up_of_isUpper a ha

end Sotto.transcript
